import Mathlib

/-!
Verification of the interval-presence engine of `it` (src/it.c) and its
daemon `itd` (src/itd.c) against the natural-language specification.

The Berkeley-DB key/value store is treated as the spec directs: a black-box
set/ordered-multimap.  Concretely:

* a HASH database keyed by the whole record (the `ti` primary, the `who`
  databases, the `g` name table) is a duplicate-free list in insertion
  order (`put` with flags 0 overwrites an identical key, leaving the
  database unchanged);
* a BTREE secondary index with `DB_DUP` (the `max` and `id` indices) is the
  primary contents stably sorted by the index key, duplicates in insertion
  order; a cursor positioned with `DB_SET_RANGE` at `k` and walked with
  `DB_NEXT` enumerates exactly the records whose key is at least `k`, in
  index order;
* `CBUG(...)` aborts the process; functions that can reach a `CBUG` whose
  condition depends on the data are modelled in `Option`, with `none` for
  the abort.  An out-of-bounds array read (undefined behavior) is likewise
  modelled as `none`.

`time_t` is a signed 64-bit integer; timestamps are modelled as `Int` with
the two sentinels `tinf` and `mtinf` from the sources.  Person ids
(`unsigned`) are modelled as `Nat`.
-/

namespace It

/-- Timestamps: `time_t` values. -/
abbrev Time := Int

/-- `TS_MAX` alias `tinf` (itd.c line 150): "infinite", the open end; the
value is `LONG_MAX`, that is `2^63 - 1`. -/
def tinf : Time := 9223372036854775807

/-- `TS_MIN` alias `mtinf` (itd.c line 149): "minus infinite"; the value is
`LONG_MIN`, that is `-2^63`. -/
def mtinf : Time := -9223372036854775808

/-- `struct ti` (both files): a stored person-timespan tuple. -/
structure Ti where
  min : Time
  max : Time
  who : Nat
deriving DecidableEq, Repr

/-- `struct isplit` (both files): a sweep-line event.  `mx = 0` is an OPEN
event (interval minimum), `mx` nonzero (the code writes 1) a CLOSE event
(interval maximum). -/
structure ISplit where
  ts : Time
  mx : Nat
  who : Nat
deriving DecidableEq, Repr

/-- `struct split` (both files): an output range together with the `whodb`
of people present (a HASH db, modelled as its duplicate-free contents list)
and the `count` field. -/
structure Split where
  min : Time
  max : Time
  whodb : List Nat
  count : Nat
deriving DecidableEq, Repr

/-! ### who databases (`who_insert`, `who_remove`, `who_get`, `who_count`) -/

/-- `who_insert` (it.c 366, itd.c 481): `put` of key `who` with overwrite,
i.e. set insertion. -/
def who_insert (whodb : List Nat) (who : Nat) : List Nat :=
  if who ∈ whodb then whodb else whodb ++ [who]

/-- `who_remove` (it.c 383, itd.c 498): `del` of key `who`; `CBUG` fires
when the key is absent (the delete returns `DB_NOTFOUND`), so the absent
case is the abort `none`. -/
def who_remove (whodb : List Nat) (who : Nat) : Option (List Nat) :=
  if who ∈ whodb then some (whodb.erase who) else none

/-- `who_get` (it.c 395, itd.c 510): membership test. -/
def who_get (whodb : List Nat) (who : Nat) : Bool :=
  who ∈ whodb

/-- `who_count` (it.c 134, itd.c 249): cursor walk counting the records. -/
def who_count (whodb : List Nat) : Nat :=
  whodb.length

/-! ### `split_create` -/

/-- `split_create` (it.c 620, itd.c 757).  Faithful to the statement order
of the source: the fresh `split->whodb` is created empty by `who_init`,
`split->count` is set to `who_count` of that fresh database, and only then
are the members of the argument `whodb` copied in. -/
def split_create (whodb : List Nat) (min max : Time) : Split :=
  let sw : List Nat := []
  let count := who_count sw
  let sw := whodb.foldl (fun acc w => who_insert acc w) sw
  ⟨min, max, sw, count⟩

/-! ### overlap predicates and `ti_intersect` -/

/-- The order of the `max` BTREE index (comparator `timax_cmp`, it.c 202,
itd.c 317). -/
def Ti.leMax (a b : Ti) : Prop :=
  a.max ≤ b.max

instance : DecidableRel Ti.leMax :=
  fun a b => inferInstanceAs (Decidable (a.max ≤ b.max))

instance : IsTotal Ti Ti.leMax :=
  ⟨fun a b => Int.le_total a.max b.max⟩

instance : IsTrans Ti Ti.leMax :=
  ⟨fun _ _ _ h1 h2 => le_trans h1 h2⟩

/-- Stable sort of the store by the `max` BTREE key; `DB_DUP` duplicates
stay in insertion order. -/
def byMax (store : List Ti) : List Ti :=
  store.insertionSort Ti.leMax

/-- The match condition of `ti_intersect` in it.c line 506:
`tmp.max >= min && tmp.min < max`. -/
def ti_match_it (t : Ti) (min max : Time) : Bool :=
  decide (t.max ≥ min) && decide (t.min < max)

/-- The match condition of `ti_intersect` in itd.c line 621:
`tmp.max > min && tmp.min <= max`. -/
def ti_match_itd (t : Ti) (min max : Time) : Bool :=
  decide (t.max > min) && decide (t.min ≤ max)

/-- `ti_intersect` (it.c 478): cursor over the `max` index from the lowest
key that is at least `min`, collecting every record matching the it.c
condition.  Records skipped by the `DB_SET_RANGE` start have `max < min`
and fail the condition anyway, so the walk equals a filter of the whole
index. -/
def ti_intersect_it (store : List Ti) (min max : Time) : List Ti :=
  (byMax store).filter (fun t => ti_match_it t min max)

/-- `ti_intersect` (itd.c 593): same cursor walk with the itd.c
condition. -/
def ti_intersect_itd (store : List Ti) (min max : Time) : List Ti :=
  (byMax store).filter (fun t => ti_match_itd t min max)

/-- `ti_present` (itd.c 641): cursor from the lowest `max ≥ when`, stopping
at the first record with `tmp.who == who && tmp.max > when && tmp.min <=
when`; the result only reports whether such a record exists (records with
`max < when` cannot satisfy `max > when`). -/
def ti_present (store : List Ti) (when : Time) (who : Nat) : Bool :=
  store.any (fun t => t.who == who && decide (t.max > when) && decide (t.min ≤ when))

/-- `matches_fix` (it.c 531, itd.c 682): clip every match to the query
window. -/
def matches_fix (matchList : List Ti) (min max : Time) : List Ti :=
  matchList.map (fun t =>
    ⟨if t.min < min then min else t.min, if t.max > max then max else t.max, t.who⟩)

/-! ### sweep line: `isplits_create`, `isplit_cmp`, `splits_create` -/

/-- `isplits_create` (it.c 579, itd.c 730): two events per match, OPEN at
`ti.min` (slot `2i`), CLOSE at `ti.max` (slot `2i+1`). -/
def isplits_create (matchList : List Ti) : List ISplit :=
  matchList.flatMap (fun m => [⟨m.min, 0, m.who⟩, ⟨m.max, 1, m.who⟩])

/-- The order decided by `isplit_cmp` (it.c 560, itd.c 711): by timestamp,
ties by the `max` flag so OPEN precedes CLOSE (`isplit_cmp a b ≤ 0`). -/
def isplit_le (a b : ISplit) : Prop :=
  a.ts < b.ts ∨ (a.ts = b.ts ∧ a.mx ≤ b.mx)

instance : DecidableRel isplit_le :=
  fun a b => inferInstanceAs (Decidable (a.ts < b.ts ∨ (a.ts = b.ts ∧ a.mx ≤ b.mx)))

instance : IsTotal ISplit isplit_le := by
  constructor
  intro a b
  rcases lt_trichotomy a.ts b.ts with h | h | h
  · exact Or.inl (Or.inl h)
  · rcases Nat.le_total a.mx b.mx with h2 | h2
    · exact Or.inl (Or.inr ⟨h, h2⟩)
    · exact Or.inr (Or.inr ⟨h.symm, h2⟩)
  · exact Or.inr (Or.inl h)

instance : IsTrans ISplit isplit_le := by
  constructor
  intro a b c h1 h2
  rcases h1 with h1 | ⟨h1, h1m⟩
  · rcases h2 with h2 | ⟨h2, _⟩
    · exact Or.inl (lt_trans h1 h2)
    · exact Or.inl (h2 ▸ h1)
  · rcases h2 with h2 | ⟨h2, h2m⟩
    · exact Or.inl (h1 ▸ h2)
    · exact Or.inr ⟨h1.trans h2, le_trans h1m h2m⟩

/-- The `qsort` call of `splits_init` (it.c 680, itd.c 816), sorting the
event array consistently with `isplit_cmp`. -/
def sortIsplits (isplits : List ISplit) : List ISplit :=
  isplits.insertionSort isplit_le

/-- The loop bound of `splits_create` (it.c 645, itd.c 782): the C guard is
`i < matches_l * 2 - 1` where `matches_l` has type `size_t`, so for
`matches_l = 0` the bound wraps around to `2^64 - 1`. -/
def scBound (matches_l : Nat) : Nat :=
  (matches_l * 2 + (2 ^ 64 - 1)) % 2 ^ 64

/-- Body of the `splits_create` loop at index `i` with `r` iterations left
(`r` starts at `scBound matches_l`).  Each iteration reads
`isplits[i]` and `isplits[i+1]`; reading past the end of the array is
undefined behavior, modelled as `none`.  A CLOSE event (`isplit->max`
nonzero) removes its person (`who_remove` aborts when absent), an OPEN
event inserts it; equal adjacent timestamps skip the zero-width split. -/
def sc_go (isplits : List ISplit) : List Nat → List Split → Nat → Nat → Option (List Split)
  | _, acc, _, 0 => some acc
  | whodb, acc, i, r + 1 =>
    match isplits[i]?, isplits[i+1]? with
    | some isplit, some isplit2 =>
      (match (if isplit.mx ≠ 0 then who_remove whodb isplit.who
              else some (who_insert whodb isplit.who)) with
       | none => none
       | some whodb2 =>
         if isplit.ts = isplit2.ts then
           sc_go isplits whodb2 acc (i + 1) r
         else
           sc_go isplits whodb2 (acc ++ [split_create whodb2 isplit.ts isplit2.ts]) (i + 1) r)
    | _, _ => none

/-- `splits_create` (it.c 633, itd.c 770): run the loop from `i = 0` with
an empty `whodb` and an empty output queue. -/
def splits_create (isplits : List ISplit) (matches_l : Nat) : Option (List Split) :=
  sc_go isplits [] [] 0 (scBound matches_l)

/-- `splits_init` (it.c 670, itd.c 807): build the event array, `qsort` it,
and run `splits_create` with the match count. -/
def splits_init (matchList : List Ti) : Option (List Split) :=
  splits_create (sortIsplits (isplits_create matchList)) matchList.length

/-! ### analysis devices for the `splits_create` loop -/

/-- The event application at the head of the `splits_create` loop body
(it.c 651-654): CLOSE removes (aborting when absent), OPEN inserts. -/
def applyEvent (whodb : List Nat) (e : ISplit) : Option (List Nat) :=
  if e.mx ≠ 0 then who_remove whodb e.who else some (who_insert whodb e.who)

/-- Total companion of `applyEvent` (the state it produces when it does
not abort). -/
def applyEventTotal (whodb : List Nat) (e : ISplit) : List Nat :=
  if e.mx ≠ 0 then whodb.erase e.who else who_insert whodb e.who

/-- Fold of `applyEventTotal` over an event list. -/
def applyList (whodb : List Nat) (l : List ISplit) : List Nat :=
  l.foldl applyEventTotal whodb

/-- Structural form of the `splits_create` loop on the event array: the
loop runs `i` from `0` to `2m - 2`, so each step applies event `i` and
pairs it with event `i + 1`; the final event is never applied.  Proved
equal to `sc_go` below (for `matches_l ≥ 1`). -/
def sweep (whodb : List Nat) (acc : List Split) : List ISplit → Option (List Split)
  | [] => some acc
  | [_] => some acc
  | a :: b :: rest =>
    match applyEvent whodb a with
    | none => none
    | some whodb2 =>
      if a.ts = b.ts then sweep whodb2 acc (b :: rest)
      else sweep whodb2 (acc ++ [split_create whodb2 a.ts b.ts]) (b :: rest)

/-- Whether person `p`'s last event in `l`, if any, is an OPEN. -/
def lastKind : List ISplit → Nat → Option Bool
  | [], _ => none
  | e :: rest, p =>
    match lastKind rest p with
    | some b => some b
    | none => if e.who == p then some (e.mx == 0) else none

/-- Person-wise well-formedness of an event list against a current
membership bit: every CLOSE event finds the bit set, and the bit tracks
the kind of the event just processed. -/
def AltOK : Bool → List ISplit → Prop
  | _, [] => True
  | inW, e :: rest => (e.mx ≠ 0 → inW = true) ∧ AltOK (e.mx == 0) rest

/-! ### the name table `gdb` (`g_insert`, `g_find`) -/

/-- `g_find` (it.c 291, itd.c 405): look the username up in the `g` HASH
database; `g_notfound` is modelled as `none`.  The database maps the
username to the id it was inserted with, which is its insertion index. -/
def g_find : List String → String → Option Nat
  | [], _ => none
  | n :: g, name => if n = name then some 0 else (g_find g name).map (· + 1)

/-- `g_insert` (it.c 272, itd.c 387): store `name → g_len` and return the
id `g_len`, incrementing the counter; the counter always equals the number
of names inserted so far. -/
def g_insert (g : List String) (name : String) : List String × Nat :=
  (g ++ [name], g.length)

/-! ### the `ti` store (`ti_insert`, `ti_finish_last`) -/

/-- `ti_insert` (it.c 421, itd.c 536): `put` into the `ti` HASH database
keyed by the whole tuple, with overwrite, so inserting an already-present
tuple leaves the store unchanged. -/
def ti_insert (store : List Ti) (id : Nat) (start fin : Time) : List Ti :=
  let t : Ti := ⟨start, fin, id⟩
  if t ∈ store then store else store ++ [t]

/-- The records of person `id` in the order of the `id` BTREE index
(comparator `tiid_cmp`, `DB_DUP` duplicates in insertion order): since all
of them share the key `id`, this is just insertion order. -/
def byId (store : List Ti) (id : Nat) : List Ti :=
  store.filter (fun t => t.who == id)

/-- `ti_finish_last` (it.c 441, itd.c 556): walk the `id` index entries of
`id` until one with `max == tinf` is found; the `CBUG` on the cursor read
and on the key mismatch make the walk abort (`none`) when no such record
exists.  The found record is deleted and re-inserted with its `max`
replaced by `end`. -/
def ti_finish_last (store : List Ti) (id : Nat) (fin : Time) : Option (List Ti) :=
  match (byId store id).find? (fun t => t.max == tinf) with
  | none => none
  | some t => some (ti_insert (store.erase t) id t.min fin)

/-! ### ingest: `process_start`, `process_stop` in both programs -/

/-- The persistent state the ingest operates on: the name table and the
interval store. -/
structure St where
  g : List String
  tis : List Ti
deriving DecidableEq, Repr

/-- `process_start` (itd.c 965): intern the username, then insert the open
interval only when `ti_present` is false. -/
def process_start_itd (s : St) (ts : Time) (u : String) : St :=
  match g_find s.g u with
  | some id =>
    if ti_present s.tis ts id then s
    else ⟨s.g, ti_insert s.tis id ts tinf⟩
  | none =>
    let (g, id) := g_insert s.g u
    if ti_present s.tis ts id then ⟨g, s.tis⟩
    else ⟨g, ti_insert s.tis id ts tinf⟩

/-- `process_start` (it.c 841): intern the username and insert the open
interval unconditionally (it.c has no `ti_present` guard). -/
def process_start_it (s : St) (ts : Time) (u : String) : St :=
  match g_find s.g u with
  | some id => ⟨s.g, ti_insert s.tis id ts tinf⟩
  | none =>
    let (g, id) := g_insert s.g u
    ⟨g, ti_insert s.tis id ts tinf⟩

/-- `process_stop` (itd.c 939): for a known id, close the last open
interval only when `ti_present` holds, otherwise do nothing; for an
unknown username, intern it and insert the retroactive interval
`[mtinf, ts]`. -/
def process_stop_itd (s : St) (ts : Time) (u : String) : Option St :=
  match g_find s.g u with
  | some id =>
    if ti_present s.tis ts id then
      (ti_finish_last s.tis id ts).map (fun tis => ⟨s.g, tis⟩)
    else some s
  | none =>
    let (g, id) := g_insert s.g u
    some ⟨g, ti_insert s.tis id mtinf ts⟩

/-- `process_stop` (it.c 816): for a known id, `ti_finish_last`
unconditionally (it.c has no `ti_present` guard); for an unknown username,
intern and insert `[mtinf, ts]`. -/
def process_stop_it (s : St) (ts : Time) (u : String) : Option St :=
  match g_find s.g u with
  | some id =>
    (ti_finish_last s.tis id ts).map (fun tis => ⟨s.g, tis⟩)
  | none =>
    let (g, id) := g_insert s.g u
    some ⟨g, ti_insert s.tis id mtinf ts⟩

/-- One ingest record, as produced by `process_line` from a `START` or
`STOP` line. -/
inductive Rec where
  | start (ts : Time) (u : String)
  | stop (ts : Time) (u : String)
deriving DecidableEq, Repr

/-- Timestamp of a record. -/
def Rec.ts : Rec → Time
  | .start ts _ => ts
  | .stop ts _ => ts

/-- One ingest step of the daemon (`process_line` dispatching to
`process_start` or `process_stop` in itd.c). -/
def step_itd (s : St) : Rec → Option St
  | .start ts u => some (process_start_itd s ts u)
  | .stop ts u => process_stop_itd s ts u

/-- One ingest step of the standalone program (it.c). -/
def step_it (s : St) : Rec → Option St
  | .start ts u => some (process_start_it s ts u)
  | .stop ts u => process_stop_it s ts u

/-- Ingest a list of records in order (itd.c); `none` when some step
aborts. -/
def run_itd : St → List Rec → Option St
  | s, [] => some s
  | s, r :: rest => (step_itd s r).bind (fun s2 => run_itd s2 rest)

/-- Ingest a list of records in order (it.c). -/
def run_it : St → List Rec → Option St
  | s, [] => some s
  | s, r :: rest => (step_it s r).bind (fun s2 => run_it s2 rest)

/-- The empty persistent state (fresh databases). -/
def st0 : St := ⟨[], []⟩

/-- The stored open intervals (`max = tinf`) of person `p`. -/
def openFilter (tis : List Ti) (p : Nat) : List Ti :=
  tis.filter (fun t => t.who == p && t.max == tinf)

/-- Number of stored open intervals of person `p`. -/
def openCount (s : St) (p : Nat) : Nat :=
  (openFilter s.tis p).length

/-- Invariant I1 of the spec: at most one stored open interval per
person. -/
def AtMostOneOpen (s : St) : Prop :=
  ∀ p, openCount s p ≤ 1

/-- Every stored open interval starts at or before `lb` (the auxiliary
invariant carried through a chronologically sorted ingest run). -/
def OpensBounded (s : St) (lb : Time) : Prop :=
  ∀ t ∈ s.tis, t.max = tinf → t.min ≤ lb

/-- The record timestamps are non-decreasing starting from `lb`, and all
below `tinf` (genuine datetimes). -/
def TsSorted : Time → List Rec → Prop
  | _, [] => True
  | lb, r :: rest => lb ≤ r.ts ∧ r.ts < tinf ∧ TsSorted r.ts rest

/-! ### `splits_get` and `splits_fill` (GapFill), itd variant -/

/-- `splits_get` (itd.c 824): intersect, clip, and run the sweep line. -/
def splits_get_itd (store : List Ti) (min max : Time) : Option (List Split) :=
  splits_init (matches_fix (ti_intersect_itd store min max) min max)

/-- `splits_fill` (it.c 718, itd.c 853) as a function of the store, the
split queue produced by `splits_get`, and the query bounds.  The
`TAILQ_FOREACH_SAFE` walk visits the head splices (inserted before the
walk starts) and every original element, but never the splits spliced in
during the walk (they are inserted before the current element); a visited
split with `count = 0` is replaced by a fresh `splits_get` over its range;
`last_max` ends as the `max` of the last visited element, and a trailing
uncovered range is filled by one more `splits_get`. -/
def splits_fill_itd (store : List Ti) (S : List Split) (min max : Time) :
    Option (List Split) :=
  match S with
  | [] => splits_get_itd store min max
  | s0 :: rest =>
    (if s0.min > min then splits_get_itd store min s0.min else some []).bind fun h =>
    ((h ++ s0 :: rest).mapM (fun s =>
        if s.count = 0 then splits_get_itd store s.min s.max else some [s])).bind fun parts =>
    let lastmax := (List.getLast (s0 :: rest) (List.cons_ne_nil s0 rest)).max
    (if max > lastmax then splits_get_itd store lastmax max else some []).map fun t =>
      parts.flatten ++ t

/-- The interval-query pipeline of `process_query` (itd.c 1056-1057):
`splits_get` followed by `splits_fill` over the same bounds. -/
def query_splits_itd (store : List Ti) (min max : Time) : Option (List Split) :=
  (splits_get_itd store min max).bind fun S => splits_fill_itd store S min max

/-! ### `process_query` modifier switch (itd.c 1033) -/

/-- Which formatter branch of `process_query` runs: `.splits` is the
`type == 1` branch printing one line of durations and names per split,
`.names` the branch printing a list of usernames. -/
inductive QueryBranch where
  | splits
  | names
deriving DecidableEq, Repr

/-- The branch selected by a `type` value: `if (type == 1)` (itd.c
line 1058). -/
def query_format_branch (type : Nat) : QueryBranch :=
  if type = 1 then .splits else .names

/-- The modifier `switch` of `process_query` (itd.c 1033-1040), returning
the final `type` and the rest of the line (a C string, modelled as its
characters).  The source has no `break` between the cases, so `case` star
assigns `type = 1`, advances 2 bytes, then falls through into `case` plus
which assigns `type = 2` and advances 2 more bytes. -/
def process_query_modifier (line : List Char) : Nat × List Char :=
  match line with
  | c :: _ =>
    if c = '*' then (2, (line.drop 2).drop 2)
    else if c = '+' then (2, line.drop 2)
    else (0, line)
  | [] => (0, line)

/-! ### `descr_read` line dispatch (itd.c 1117) -/

/-- How one input line is handled. -/
inductive Disp where
  | ingest (line : String)
  | query (line : String)
deriving DecidableEq, Repr

/-- The line loop of one `descr_read` call: `int query = 0` is a local of
the function, so each call starts in ingest mode; a line equal to `EOF`
flips the flag for the remainder of this call only. -/
def descr_read_go (query : Bool) : List String → List Disp
  | [] => []
  | line :: rest =>
    if line = "EOF" then descr_read_go true rest
    else (if query then Disp.query line else Disp.ingest line) :: descr_read_go query rest

/-- One `descr_read` call on the lines contained in the data it read. -/
def descr_read_lines (lines : List String) : List Disp :=
  descr_read_go false lines

/-- A connection as the daemon sees it: a sequence of `descr_read` calls
(one per readiness event), each handling the lines that arrived since the
previous call, each starting with the `query` local re-initialised to 0. -/
def conn_dispatch (reads : List (List String)) : List Disp :=
  reads.flatMap descr_read_lines

/-! ## Theorems -/

/-! ### helper lemmas -/

/-- Interning a fresh name makes it findable at the new id. -/
theorem g_find_after_insert (g : List String) (u : String) (h : g_find g u = none) :
    g_find (g ++ [u]) u = some g.length := by
  induction g with
  | nil => simp [g_find]
  | cons a g ih =>
    rw [g_find] at h
    by_cases hau : a = u
    · simp [hau] at h
    · rw [if_neg hau] at h
      have h2 : g_find g u = none := by
        cases hg : g_find g u with
        | none => rfl
        | some v => rw [hg] at h; simp at h
      rw [List.cons_append, g_find, if_neg hau, ih h2]
      rfl

/-- A stored tuple of person `p` whose span covers `ts` (strictly at the
top) makes `ti_present` true. -/
theorem ti_present_of_open (store : List Ti) (ts : Time) (p : Nat) (t : Ti)
    (hmem : t ∈ store) (hw : t.who = p) (hmax : ts < t.max) (hmin : t.min ≤ ts) :
    ti_present store ts p = true := by
  simp only [ti_present, List.any_eq_true]
  exact ⟨t, hmem, by simp [hw, hmax, hmin]⟩

/-- A stored tuple `⟨ts, tinf, id⟩` makes person `id` present at any
`ts < tinf`. -/
theorem ti_present_of_mem (store : List Ti) (ts : Time) (id : Nat)
    (hts : ts < tinf) (hmem : (⟨ts, tinf, id⟩ : Ti) ∈ store) :
    ti_present store ts id = true :=
  ti_present_of_open store ts id ⟨ts, tinf, id⟩ hmem rfl hts (le_refl ts)

/-- Appending a record extends `openFilter` by the record when it is an
open interval of the person, by nothing otherwise. -/
theorem openFilter_append (tis : List Ti) (t : Ti) (p : Nat) :
    openFilter (tis ++ [t]) p
      = openFilter tis p ++ (if t.who == p && t.max == tinf then [t] else []) := by
  simp only [openFilter, List.filter_append]
  congr 1
  split <;> rename_i h <;> simp [List.filter, h]

/-! ### C1 -/

/-- C1 claims that `split_create` sets `count` to the cardinality of the
presence set.  In fact the source computes `count` by running `who_count`
on the freshly created empty `split->whodb` before copying the presence
set into it, so `count` is `0` for every split, including the split
created from the nonempty presence set `[7]` whose cardinality is `1`. -/
theorem C1_split_count_bug :
    (∀ (whodb : List Nat) (min max : Time), (split_create whodb min max).count = 0)
    ∧ (split_create [7] 0 1).whodb.length = 1 := by
  exact ⟨fun whodb min max => rfl, rfl⟩

/-! ### C2 -/

/-- C2 claims both programs include a stored TI in `overlap(min, max)` iff
`tMax ≥ min ∧ tMin ≤ max`, with a point query at an instant equal to
`tMax` matching, and the same predicate in both programs.  Counterexample:
for the store holding only `⟨0, 5, 0⟩` the point query `[5, 5]` matches in
it.c but not in itd.c, so the two programs disagree, and itd.c does not
include a TI whose `tMax` equals the query instant. -/
theorem C2_counterexample :
    ti_intersect_it [⟨0, 5, 0⟩] 5 5 = [⟨0, 5, 0⟩]
    ∧ ti_intersect_itd [⟨0, 5, 0⟩] 5 5 = [] := by
  exact ⟨by decide, by decide⟩

/-- C2 amended: `overlap(min, max)` includes a stored TI iff
`tMax ≥ min ∧ tMin < max` in it.c but iff `tMax > min ∧ tMin ≤ max` in
itd.c; the two predicates differ at the boundaries (witness the TI
`⟨0, 5, 0⟩` under the point query `[5, 5]`), so a point query at an
instant equal to a `tMax` includes that TI only in it.c (and only when
its `tMin` is below the instant). -/
theorem C2_overlap_predicates :
    ∀ (store : List Ti) (min max : Time) (t : Ti),
    (t ∈ ti_intersect_it store min max ↔ t ∈ store ∧ min ≤ t.max ∧ t.min < max)
    ∧ (t ∈ ti_intersect_itd store min max ↔ t ∈ store ∧ min < t.max ∧ t.min ≤ max)
    ∧ ti_match_it ⟨0, 5, 0⟩ 5 5 = true ∧ ti_match_itd ⟨0, 5, 0⟩ 5 5 = false := by
  intro store min max t
  refine ⟨?_, ?_, by decide, by decide⟩
  · simp [ti_intersect_it, byMax, List.mem_filter, ti_match_it, and_assoc]
  · simp [ti_intersect_itd, byMax, List.mem_filter, ti_match_itd, and_assoc]

/-! ### C3 -/

/-- C3 claims that in both programs a `START(t, u)` inserts the open
interval iff `isPresentAt(id, t)` is false.  Counterexample: in the
reachable it.c state after `START 0 u`, person 0 is present at 5, yet
`START 5 u` in it.c inserts a second open interval anyway (it.c has no
`ti_present` guard). -/
theorem C3_counterexample :
    run_it st0 [.start 0 "u"] = some ⟨["u"], [⟨0, tinf, 0⟩]⟩
    ∧ ti_present [⟨0, tinf, 0⟩] 5 0 = true
    ∧ process_start_it ⟨["u"], [⟨0, tinf, 0⟩]⟩ 5 "u"
      = ⟨["u"], [⟨0, tinf, 0⟩, ⟨5, tinf, 0⟩]⟩ := by
  exact ⟨by decide, by decide, by decide⟩

/-- C3 amended: `START(t, u)` interns `u` in both programs; the guarded
insert — a new open interval `(id, t, T_MAX)` appended iff
`isPresentAt(id, t)` is false — holds in itd.c, while it.c inserts the
open interval unconditionally; ingesting two identical `START` lines still
leaves the same state as one in both programs (in it.c because the store
is keyed by the whole tuple, so the duplicate insert overwrites). -/
theorem C3_start_semantics :
    ∀ (s : St) (ts : Time) (u : String), ts < tinf →
    (process_start_itd s ts u).g
      = (match g_find s.g u with | some _ => s.g | none => s.g ++ [u])
    ∧ (process_start_itd s ts u).tis
      = (if ti_present s.tis ts ((g_find s.g u).getD s.g.length) then s.tis
         else s.tis ++ [⟨ts, tinf, (g_find s.g u).getD s.g.length⟩])
    ∧ (process_start_it s ts u).tis
      = ti_insert s.tis ((g_find s.g u).getD s.g.length) ts tinf
    ∧ process_start_itd (process_start_itd s ts u) ts u = process_start_itd s ts u
    ∧ process_start_it (process_start_it s ts u) ts u = process_start_it s ts u := by
  intro s ts u hts
  have hins : ∀ (tis : List Ti) (id : Nat), ti_present tis ts id = false →
      ti_insert tis id ts tinf = tis ++ [⟨ts, tinf, id⟩] := by
    intro tis id hpres
    rw [ti_insert]
    rw [if_neg]
    intro hmem
    rw [ti_present_of_mem tis ts id hts hmem] at hpres
    exact Bool.true_eq_false.mp hpres
  have hmm : ∀ (tis : List Ti) (id : Nat),
      (⟨ts, tinf, id⟩ : Ti) ∈ ti_insert tis id ts tinf := by
    intro tis id
    rw [ti_insert]
    by_cases hmem : (⟨ts, tinf, id⟩ : Ti) ∈ tis
    · rw [if_pos hmem]
      exact hmem
    · simp [hmem]
  rcases hg : g_find s.g u with _ | id
  · -- unknown username: it is interned at id `s.g.length`
    have hfind : g_find (s.g ++ [u]) u = some s.g.length := g_find_after_insert s.g u hg
    rcases hpres : ti_present s.tis ts s.g.length with _ | _
    · refine ⟨?_, ?_, ?_, ?_, ?_⟩
      · simp [process_start_itd, hg, g_insert, hpres]
      · simp [process_start_itd, hg, g_insert, hpres, hins s.tis s.g.length hpres]
      · simp [process_start_it, hg, g_insert]
      · have h1 : process_start_itd s ts u = ⟨s.g ++ [u], ti_insert s.tis s.g.length ts tinf⟩ := by
          simp [process_start_itd, hg, g_insert, hpres]
        rw [h1]
        have h2 : ti_present (ti_insert s.tis s.g.length ts tinf) ts s.g.length = true :=
          ti_present_of_mem _ ts _ hts (hmm s.tis s.g.length)
        simp [process_start_itd, hfind, h2, h1]
      · have h1 : process_start_it s ts u = ⟨s.g ++ [u], ti_insert s.tis s.g.length ts tinf⟩ := by
          simp [process_start_it, hg, g_insert]
        rw [h1]
        have h2 : ti_insert (ti_insert s.tis s.g.length ts tinf) s.g.length ts tinf
            = ti_insert s.tis s.g.length ts tinf := by
          rw [ti_insert, if_pos (hmm s.tis s.g.length)]
        simp [process_start_it, hfind, h1, h2]
    · refine ⟨?_, ?_, ?_, ?_, ?_⟩
      · simp [process_start_itd, hg, g_insert, hpres]
      · simp [process_start_itd, hg, g_insert, hpres]
      · simp [process_start_it, hg, g_insert]
      · have h1 : process_start_itd s ts u = ⟨s.g ++ [u], s.tis⟩ := by
          simp [process_start_itd, hg, g_insert, hpres]
        rw [h1]
        simp [process_start_itd, hfind, hpres, h1]
      · have h1 : process_start_it s ts u = ⟨s.g ++ [u], ti_insert s.tis s.g.length ts tinf⟩ := by
          simp [process_start_it, hg, g_insert]
        rw [h1]
        have h2 : ti_insert (ti_insert s.tis s.g.length ts tinf) s.g.length ts tinf
            = ti_insert s.tis s.g.length ts tinf := by
          rw [ti_insert, if_pos (hmm s.tis s.g.length)]
        simp [process_start_it, hfind, h1, h2]
  · -- known username
    rcases hpres : ti_present s.tis ts id with _ | _
    · refine ⟨?_, ?_, ?_, ?_, ?_⟩
      · simp [process_start_itd, hg, hpres]
      · simp [process_start_itd, hg, hpres, hins s.tis id hpres]
      · simp [process_start_it, hg]
      · have h1 : process_start_itd s ts u = ⟨s.g, ti_insert s.tis id ts tinf⟩ := by
          simp [process_start_itd, hg, hpres]
        rw [h1]
        have h2 : ti_present (ti_insert s.tis id ts tinf) ts id = true :=
          ti_present_of_mem _ ts _ hts (hmm s.tis id)
        simp [process_start_itd, hg, h2, h1]
      · have h1 : process_start_it s ts u = ⟨s.g, ti_insert s.tis id ts tinf⟩ := by
          simp [process_start_it, hg]
        rw [h1]
        have h2 : ti_insert (ti_insert s.tis id ts tinf) id ts tinf
            = ti_insert s.tis id ts tinf := by
          rw [ti_insert, if_pos (hmm s.tis id)]
        simp [process_start_it, hg, h1, h2]
    · refine ⟨?_, ?_, ?_, ?_, ?_⟩
      · simp [process_start_itd, hg, hpres]
      · simp [process_start_itd, hg, hpres]
      · simp [process_start_it, hg]
      · have h1 : process_start_itd s ts u = s := by
          simp [process_start_itd, hg, hpres]
        rw [h1]
        exact h1
      · have h1 : process_start_it s ts u = ⟨s.g, ti_insert s.tis id ts tinf⟩ := by
          simp [process_start_it, hg]
        rw [h1]
        have h2 : ti_insert (ti_insert s.tis id ts tinf) id ts tinf
            = ti_insert s.tis id ts tinf := by
          rw [ti_insert, if_pos (hmm s.tis id)]
        simp [process_start_it, hg, h1, h2]

/-- Witness for `C3_start_semantics` at the concrete state reached after
`START 0 u` and record `START 5 u`, discharging the `ts < tinf`
hypothesis. -/
theorem C3_start_semantics_witness :
    (5 : Time) < tinf
    ∧ process_start_itd (process_start_itd ⟨["u"], [⟨0, tinf, 0⟩]⟩ 5 "u") 5 "u"
      = process_start_itd ⟨["u"], [⟨0, tinf, 0⟩]⟩ 5 "u" :=
  ⟨by decide, (C3_start_semantics ⟨["u"], [⟨0, tinf, 0⟩]⟩ 5 "u" (by decide)).2.2.2.1⟩

/-! ### C4 -/

/-- C4 claims that in both programs a `STOP(t, u)` for a known person who
is not present at `t` leaves the store unchanged.  Counterexample: in the
reachable it.c state after `START 0 u` and `STOP 5 u`, person 0 is not
present at 7, yet `STOP 7 u` in it.c aborts (it unconditionally runs
`ti_finish_last`, whose scan for an open interval hits the `CBUG`) instead
of being a no-op. -/
theorem C4_counterexample :
    run_it st0 [.start 0 "u", .stop 5 "u"] = some ⟨["u"], [⟨0, 5, 0⟩]⟩
    ∧ ti_present [⟨0, 5, 0⟩] 7 0 = false
    ∧ process_stop_it ⟨["u"], [⟨0, 5, 0⟩]⟩ 7 "u" = none := by
  exact ⟨by decide, by decide, by decide⟩

/-- C4 amended: `STOP(t, u)` for an unknown `u` interns it and inserts
`(id, T_MIN, t)` in both programs; in itd.c a known, present person gets
`ti_finish_last` (which aborts when no open interval exists) and a known,
not-present person is a no-op; in it.c the present-guard is missing, so a
known person always gets `ti_finish_last`, which aborts — rather than
no-op — when the person has no open interval (for example someone already
stopped at or before `t`). -/
theorem C4_stop_semantics :
    ∀ (s : St) (ts : Time) (u : String),
    (g_find s.g u = none →
      process_stop_itd s ts u = some ⟨s.g ++ [u], ti_insert s.tis s.g.length mtinf ts⟩
      ∧ process_stop_it s ts u = some ⟨s.g ++ [u], ti_insert s.tis s.g.length mtinf ts⟩)
    ∧ (∀ id, g_find s.g u = some id →
      (ti_present s.tis ts id = true →
        process_stop_itd s ts u = (ti_finish_last s.tis id ts).map (fun tis => ⟨s.g, tis⟩))
      ∧ (ti_present s.tis ts id = false → process_stop_itd s ts u = some s)
      ∧ process_stop_it s ts u = (ti_finish_last s.tis id ts).map (fun tis => ⟨s.g, tis⟩)
      ∧ ((byId s.tis id).find? (fun t => t.max == tinf) = none →
          process_stop_it s ts u = none)) := by
  intro s ts u
  constructor
  · intro hg
    exact ⟨by simp [process_stop_itd, hg, g_insert], by simp [process_stop_it, hg, g_insert]⟩
  · intro id hg
    refine ⟨?_, ?_, ?_, ?_⟩
    · intro hpres
      simp [process_stop_itd, hg, hpres]
    · intro hpres
      simp [process_stop_itd, hg, hpres]
    · simp [process_stop_it, hg]
    · intro hopen
      simp [process_stop_it, hg, ti_finish_last, hopen]

/-- Witness for `C4_stop_semantics`: the no-op clause of itd.c and the
abort clause of it.c applied in the concrete state holding only the closed
interval `⟨0, 5, 0⟩` of the known person `u`. -/
theorem C4_stop_semantics_witness :
    process_stop_itd ⟨["u"], [⟨0, 5, 0⟩]⟩ 7 "u" = some ⟨["u"], [⟨0, 5, 0⟩]⟩
    ∧ process_stop_it ⟨["u"], [⟨0, 5, 0⟩]⟩ 7 "u" = none :=
  ⟨((C4_stop_semantics ⟨["u"], [⟨0, 5, 0⟩]⟩ 7 "u").2 0 (by decide)).2.1 (by decide),
   ((C4_stop_semantics ⟨["u"], [⟨0, 5, 0⟩]⟩ 7 "u").2 0 (by decide)).2.2.2 (by decide)⟩

/-! ### C5 -/

/-- C5 claims at most one open interval per person after every itd ingest
step, for every sequence of lines including out-of-order STARTs.
Counterexample: ingesting `START 10 u` then `START 5 u` (decreasing
timestamps) leaves person 0 with two stored open intervals, because at
time 5 the open interval starting at 10 does not make `ti_present` true. -/
theorem C5_counterexample :
    run_itd st0 [.start 10 "u", .start 5 "u"]
      = some ⟨["u"], [⟨10, tinf, 0⟩, ⟨5, tinf, 0⟩]⟩
    ∧ openCount ⟨["u"], [⟨10, tinf, 0⟩, ⟨5, tinf, 0⟩]⟩ 0 = 2 := by
  exact ⟨by decide, by decide⟩

/-- Membership in `ti_insert`: the store plus possibly the new tuple. -/
theorem mem_ti_insert (tis : List Ti) (id : Nat) (a b : Time) (t : Ti) :
    t ∈ ti_insert tis id a b ↔ t ∈ tis ∨ t = ⟨a, b, id⟩ := by
  rw [ti_insert]
  by_cases hmem : (⟨a, b, id⟩ : Ti) ∈ tis
  · rw [if_pos hmem]
    refine ⟨fun h => Or.inl h, fun h => ?_⟩
    rcases h with h | h
    · exact h
    · rw [h]
      exact hmem
  · rw [if_neg hmem]
    simp [List.mem_append]

/-- Inserting a tuple whose `max` is not `tinf` leaves every person's open
intervals unchanged. -/
theorem openFilter_ti_insert_closed (tis : List Ti) (id : Nat) (a b : Time)
    (hb : b ≠ tinf) (p : Nat) :
    openFilter (ti_insert tis id a b) p = openFilter tis p := by
  rw [ti_insert]
  by_cases hmem : (⟨a, b, id⟩ : Ti) ∈ tis
  · rw [if_pos hmem]
  · rw [if_neg hmem, openFilter_append]
    simp [hb]

/-- The itd `START` insert branch (not present): the invariants survive
because the person being not present at `ts` rules out an existing open
interval starting at or before `ts`, which the bound invariant makes all
of them. -/
theorem start_insert_ok (tis : List Ti) (ts : Time) (id : Nat) (hts : ts < tinf)
    (h1 : ∀ p, (openFilter tis p).length ≤ 1)
    (h2 : ∀ t ∈ tis, t.max = tinf → t.min ≤ ts)
    (hpres : ti_present tis ts id = false) :
    (∀ p, (openFilter (ti_insert tis id ts tinf) p).length ≤ 1)
    ∧ (∀ t ∈ ti_insert tis id ts tinf, t.max = tinf → t.min ≤ ts) := by
  have hzero : openFilter tis id = [] := by
    rw [List.eq_nil_iff_forall_not_mem]
    intro t ht
    rcases List.mem_filter.mp ht with ⟨htis, hcond⟩
    rcases (by simpa using hcond : t.who = id ∧ t.max = tinf) with ⟨hw2, hmx2⟩
    have := ti_present_of_open tis ts id t htis hw2 (by rw [hmx2]; exact hts)
      (h2 t htis hmx2)
    rw [this] at hpres
    exact Bool.true_eq_false.mp hpres
  have hnmem : (⟨ts, tinf, id⟩ : Ti) ∉ tis := by
    intro hmem
    have := ti_present_of_mem tis ts id hts hmem
    rw [this] at hpres
    exact Bool.true_eq_false.mp hpres
  have hins : ti_insert tis id ts tinf = tis ++ [⟨ts, tinf, id⟩] := by
    rw [ti_insert, if_neg hnmem]
  constructor
  · intro p
    rw [hins, openFilter_append]
    by_cases hp : id = p
    · rw [← hp, hzero]
      simp
    · have : ((⟨ts, tinf, id⟩ : Ti).who == p && (⟨ts, tinf, id⟩ : Ti).max == tinf) = false := by
        simp [hp]
      rw [this]
      simpa using h1 p
  · intro t ht
    rw [hins, List.mem_append] at ht
    rcases ht with ht | ht
    · exact h2 t ht
    · intro _
      rw [List.mem_singleton.mp ht]

/-- `ti_finish_last` preserves the invariants: it deletes one record and
inserts a closed one. -/
theorem finish_ok (tis : List Ti) (ts : Time) (id : Nat) (tis2 : List Ti)
    (hts : ts < tinf)
    (h1 : ∀ p, (openFilter tis p).length ≤ 1)
    (h2 : ∀ t ∈ tis, t.max = tinf → t.min ≤ ts)
    (hfin : ti_finish_last tis id ts = some tis2) :
    (∀ p, (openFilter tis2 p).length ≤ 1)
    ∧ (∀ t ∈ tis2, t.max = tinf → t.min ≤ ts) := by
  rw [ti_finish_last] at hfin
  rcases hfind : (byId tis id).find? (fun t => t.max == tinf) with _ | t0
  · rw [hfind] at hfin
    exact absurd hfin (by simp)
  · rw [hfind] at hfin
    have htis2 : tis2 = ti_insert (tis.erase t0) id t0.min ts := by
      exact (Option.some_injective _ hfin).symm
    have hsub : (tis.erase t0).Sublist tis := List.erase_sublist t0 tis
    have hne : ts ≠ tinf := ne_of_lt hts
    constructor
    · intro p
      rw [htis2, openFilter_ti_insert_closed (tis.erase t0) id t0.min ts hne p]
      calc (openFilter (tis.erase t0) p).length
          ≤ (openFilter tis p).length :=
            List.Sublist.length_le (List.Sublist.filter _ hsub)
        _ ≤ 1 := h1 p
    · intro t ht
      rw [htis2, mem_ti_insert] at ht
      rcases ht with ht | ht
      · exact h2 t (hsub.subset ht)
      · intro habs
        rw [ht] at habs
        exact absurd habs hne

/-- One itd `START` step preserves the two invariants. -/
theorem start_preserves (s : St) (ts : Time) (u : String) (hts : ts < tinf)
    (h1 : AtMostOneOpen s) (h2 : OpensBounded s ts) :
    AtMostOneOpen (process_start_itd s ts u) ∧ OpensBounded (process_start_itd s ts u) ts := by
  have h1f : ∀ p, (openFilter s.tis p).length ≤ 1 := h1
  rcases hg : g_find s.g u with _ | id
  · rcases hpres : ti_present s.tis ts s.g.length with _ | _
    · have key := start_insert_ok s.tis ts s.g.length hts h1f h2 hpres
      have hres : process_start_itd s ts u = ⟨s.g ++ [u], ti_insert s.tis s.g.length ts tinf⟩ := by
        simp [process_start_itd, hg, g_insert, hpres]
      rw [hres]
      exact ⟨fun p => key.1 p, key.2⟩
    · have hres : process_start_itd s ts u = ⟨s.g ++ [u], s.tis⟩ := by
        simp [process_start_itd, hg, g_insert, hpres]
      rw [hres]
      exact ⟨fun p => h1 p, h2⟩
  · rcases hpres : ti_present s.tis ts id with _ | _
    · have key := start_insert_ok s.tis ts id hts h1f h2 hpres
      have hres : process_start_itd s ts u = ⟨s.g, ti_insert s.tis id ts tinf⟩ := by
        simp [process_start_itd, hg, hpres]
      rw [hres]
      exact ⟨fun p => key.1 p, key.2⟩
    · have hres : process_start_itd s ts u = s := by
        simp [process_start_itd, hg, hpres]
      rw [hres]
      exact ⟨h1, h2⟩

/-- One itd `STOP` step preserves the two invariants. -/
theorem stop_preserves (s : St) (ts : Time) (u : String) (s2 : St) (hts : ts < tinf)
    (h1 : AtMostOneOpen s) (h2 : OpensBounded s ts)
    (hstep : process_stop_itd s ts u = some s2) :
    AtMostOneOpen s2 ∧ OpensBounded s2 ts := by
  rcases hg : g_find s.g u with _ | id
  · have heq : process_stop_itd s ts u
        = some ⟨s.g ++ [u], ti_insert s.tis s.g.length mtinf ts⟩ := by
      simp [process_stop_itd, hg, g_insert]
    rw [heq] at hstep
    have hs2 : s2 = ⟨s.g ++ [u], ti_insert s.tis s.g.length mtinf ts⟩ :=
      (Option.some_injective _ hstep).symm
    have hne : ts ≠ tinf := ne_of_lt hts
    constructor
    · intro p
      show (openFilter s2.tis p).length ≤ 1
      rw [hs2]
      rw [openFilter_ti_insert_closed s.tis s.g.length mtinf ts hne p]
      exact h1 p
    · intro t ht hmax
      rw [hs2] at ht
      rcases (mem_ti_insert s.tis s.g.length mtinf ts t).mp ht with hmem | heq2
      · exact h2 t hmem hmax
      · rw [heq2] at hmax
        exact absurd hmax hne
  · rcases hpres : ti_present s.tis ts id with _ | _
    · have heq : process_stop_itd s ts u = some s := by
        simp [process_stop_itd, hg, hpres]
      rw [heq] at hstep
      rw [← Option.some_injective _ hstep]
      exact ⟨h1, h2⟩
    · have heq : process_stop_itd s ts u
          = (ti_finish_last s.tis id ts).map (fun tis => ⟨s.g, tis⟩) := by
        simp [process_stop_itd, hg, hpres]
      rw [heq] at hstep
      rcases hfin : ti_finish_last s.tis id ts with _ | tis2
      · rw [hfin] at hstep
        exact absurd hstep (by simp)
      · rw [hfin] at hstep
        have hs2 : s2 = ⟨s.g, tis2⟩ := by
          simpa using hstep.symm
        have key := finish_ok s.tis ts id tis2 hts (fun p => h1 p) h2 hfin
        rw [hs2]
        exact ⟨fun p => key.1 p, key.2⟩

/-- `OpensBounded` is monotone in the bound. -/
theorem opensBounded_mono (s : St) (lb lb2 : Time) (h : lb ≤ lb2)
    (hb : OpensBounded s lb) : OpensBounded s lb2 :=
  fun t ht hmax => le_trans (hb t ht hmax) h

/-- Running a chronologically sorted record list from an invariant state
keeps the invariants. -/
theorem run_itd_preserves :
    ∀ (recs : List Rec) (lb : Time) (s s2 : St),
    AtMostOneOpen s → OpensBounded s lb → TsSorted lb recs →
    run_itd s recs = some s2 → AtMostOneOpen s2 := by
  intro recs
  induction recs with
  | nil =>
    intro lb s s2 h1 _ _ hrun
    rw [run_itd] at hrun
    rw [← Option.some_injective _ hrun]
    exact h1
  | cons r rest ih =>
    intro lb s s2 h1 hb hsort hrun
    rcases hsort with ⟨hlb, hts, hsort2⟩
    have hb2 : OpensBounded s r.ts := opensBounded_mono s lb r.ts hlb hb
    rw [run_itd] at hrun
    rcases hstep : step_itd s r with _ | s1
    · rw [hstep] at hrun
      exact absurd hrun (by simp)
    · rw [hstep] at hrun
      have hrun2 : run_itd s1 rest = some s2 := hrun
      have hnext : AtMostOneOpen s1 ∧ OpensBounded s1 r.ts := by
        rcases r with ⟨ts, u⟩ | ⟨ts, u⟩
        · have hs1 : s1 = process_start_itd s ts u := by
            rw [step_itd] at hstep
            exact (Option.some_injective _ hstep).symm
          rw [hs1]
          exact start_preserves s ts u hts h1 hb2
        · rw [step_itd] at hstep
          exact stop_preserves s ts u s1 hts h1 hb2 hstep
      exact ih r.ts s1 s2 hnext.1 hnext.2 hsort2 hrun2

/-- C5 amended: at most one stored open interval per person holds after
every itd ingest step for every record sequence whose timestamps are
non-decreasing and below `T_MAX` — chronologically ordered input — when
started from a state already satisfying the invariant with all open
intervals starting at or before the first timestamp (in particular from
the empty store).  Out-of-order STARTs violate it (see the
counterexample). -/
theorem C5_single_open_invariant :
    ∀ (recs : List Rec) (lb : Time) (s s2 : St),
    AtMostOneOpen s → OpensBounded s lb → TsSorted lb recs →
    run_itd s recs = some s2 → AtMostOneOpen s2 := by
  intro recs lb s s2 h1 hb hsort hrun
  exact run_itd_preserves recs lb s s2 h1 hb hsort hrun

/-- Witness for `C5_single_open_invariant`: the chronological run
`START 0 u`, `STOP 3 u` from the empty store, discharging every
hypothesis at a concrete input. -/
theorem C5_single_open_invariant_witness :
    AtMostOneOpen ⟨["u"], [⟨0, 3, 0⟩]⟩ := by
  refine C5_single_open_invariant [.start 0 "u", .stop 3 "u"] 0 st0 ⟨["u"], [⟨0, 3, 0⟩]⟩
    ?_ ?_ ?_ ?_
  · intro p
    exact Nat.zero_le 1
  · intro t ht
    exact absurd ht (List.not_mem_nil t)
  · exact ⟨le_refl 0, by decide, by decide, by decide, trivial⟩
  · decide

/-! ### C6 -/

/-- C6 claims that after GapFill over a query `[min, max]` against a
non-empty primary interval set, the split ranges union to `[min, max]`.
In fact every split carries `count = 0` (see C1), so `splits_fill`
replaces each split by a re-query of its own range; the re-query of a
genuinely empty gap finds nothing and the gap is dropped.  Concretely:
after ingesting `a` present over `[0, 3]` and `b` over `[5, 8]`, the query
`[0, 8]` returns splits covering `[0, 3]` and `[5, 8]` only — the instant
`4` lies in `[0, 8]` but in no output split. -/
theorem C6_gapfill_coverage_bug :
    run_itd st0 [.start 0 "a", .stop 3 "a", .start 5 "b", .stop 8 "b"]
      = some ⟨["a", "b"], [⟨0, 3, 0⟩, ⟨5, 8, 1⟩]⟩
    ∧ query_splits_itd [⟨0, 3, 0⟩, ⟨5, 8, 1⟩] 0 8
      = some [⟨0, 3, [0], 0⟩, ⟨5, 8, [1], 0⟩]
    ∧ ((0 : Time) ≤ 4 ∧ (4 : Time) ≤ 8)
    ∧ ∀ sp ∈ [(⟨0, 3, [0], 0⟩ : Split), ⟨5, 8, [1], 0⟩],
        ¬(sp.min ≤ 4 ∧ (4 : Time) ≤ sp.max) := by
  exact ⟨by decide, by decide, by decide, by decide⟩

/-! ### C7 -/

/-- C7 claims `splits_create` with `matches_l = 0` performs no iteration,
never indexes into the empty isplit array, and leaves the output queue
empty.  In fact the loop guard `i < matches_l * 2 - 1` is computed in
`size_t`, so for `matches_l = 0` the bound wraps to `2^64 - 1`, the loop
body runs, and its first action reads `isplits[0]` and `isplits[1]` of the
empty array — undefined behavior, modelled as the abort `none`. -/
theorem C7_zero_matches_bug :
    scBound 0 = 2 ^ 64 - 1
    ∧ splits_create [] 0 = none
    ∧ splits_init ([] : List Ti) = none := by
  refine ⟨by decide, ?_, ?_⟩
  · show sc_go [] [] [] 0 (scBound 0) = none
    rw [show scBound 0 = 2 ^ 64 - 2 + 1 from by decide]
    rfl
  · show splits_create (sortIsplits (isplits_create [])) ([] : List Ti).length = none
    show sc_go _ [] [] 0 (scBound 0) = none
    rw [show scBound 0 = 2 ^ 64 - 2 + 1 from by decide]
    rfl

/-! ### C8 -/

/-- C8 claims a query line starting with `*` is answered with one line per
split (duration and names).  In fact the modifier `switch` in
`process_query` has no `break`, so `case` star falls through into `case`
plus: the final `type` is 2 — selecting the names formatter, not the
`type == 1` splits formatter — and the line pointer advances 4 bytes, so
the first timestamp is parsed from the token with its first two characters
missing. -/
theorem C8_star_modifier_bug :
    process_query_modifier ("* 2022-01-01 2022-04-01".toList)
      = (2, "22-01-01 2022-04-01".toList)
    ∧ query_format_branch (process_query_modifier ("* 2022-01-01 2022-04-01".toList)).1
      = QueryBranch.names
    ∧ query_format_branch 1 = QueryBranch.splits := by
  exact ⟨by decide, by decide, by decide⟩

/-! ### C9 -/

/-- C9 claims that once a connection has received the line `EOF`, all
subsequent lines on that connection are processed as queries regardless of
how the lines are grouped into socket reads.  In fact the `query` flag is
a local variable of `descr_read`, re-initialised to 0 on every call, so
the INGEST→QUERY transition only survives within one read: a line arriving
in a later read than the `EOF` line is processed as an ingest record,
while the same two lines inside a single read are handled as the claim
says. -/
theorem C9_eof_state_bug :
    conn_dispatch [["EOF"], ["2022-01-01"]] = [.ingest "2022-01-01"]
    ∧ descr_read_lines ["EOF", "2022-01-01"] = [.query "2022-01-01"] := by
  exact ⟨by decide, by decide⟩

/-! ### C10: structural analysis of the `splits_create` loop -/

/-- Membership in `who_insert`. -/
theorem mem_who_insert (w : List Nat) (x p : Nat) :
    p ∈ who_insert w x ↔ p ∈ w ∨ p = x := by
  rw [who_insert]
  by_cases hmem : x ∈ w
  · rw [if_pos hmem]
    refine ⟨fun h => Or.inl h, fun h => ?_⟩
    rcases h with h | h
    · exact h
    · rw [h]
      exact hmem
  · rw [if_neg hmem]
    simp [List.mem_append]

/-- `who_insert` keeps the presence database duplicate-free. -/
theorem who_insert_nodup (w : List Nat) (x : Nat) (h : w.Nodup) :
    (who_insert w x).Nodup := by
  rw [who_insert]
  by_cases hmem : x ∈ w
  · rw [if_pos hmem]
    exact h
  · rw [if_neg hmem]
    exact List.Nodup.append h (List.nodup_singleton x)
      (fun a ha hb => hmem (by rw [← List.mem_singleton.mp hb]; exact ha))

/-- `applyEventTotal` keeps the presence database duplicate-free. -/
theorem applyEventTotal_nodup (w : List Nat) (e : ISplit) (h : w.Nodup) :
    (applyEventTotal w e).Nodup := by
  rw [applyEventTotal]
  by_cases hmx : e.mx ≠ 0
  · rw [if_pos hmx]
    exact List.Nodup.erase e.who h
  · rw [if_neg hmx]
    exact who_insert_nodup w e.who h

/-- A successful `applyEvent` produces the `applyEventTotal` state. -/
theorem applyEvent_some (w w2 : List Nat) (e : ISplit)
    (h : applyEvent w e = some w2) : applyEventTotal w e = w2 := by
  rw [applyEvent] at h
  rw [applyEventTotal]
  by_cases hmx : e.mx ≠ 0
  · rw [if_pos hmx] at h
    rw [if_pos hmx]
    rw [who_remove] at h
    by_cases hmem : e.who ∈ w
    · rw [if_pos hmem] at h
      exact Option.some_injective _ h
    · rw [if_neg hmem] at h
      exact absurd h (by simp)
  · rw [if_neg hmx] at h
    rw [if_neg hmx]
    exact Option.some_injective _ h

/-- When its guard holds, `applyEvent` does not abort. -/
theorem applyEvent_of_guard (w : List Nat) (e : ISplit)
    (h : e.mx ≠ 0 → e.who ∈ w) : applyEvent w e = some (applyEventTotal w e) := by
  rw [applyEvent, applyEventTotal]
  by_cases hmx : e.mx ≠ 0
  · rw [if_pos hmx, if_pos hmx, who_remove, if_pos (h hmx)]
  · rw [if_neg hmx, if_neg hmx]

/-- A CLOSE that aborts on an absent person: `applyEvent` is `none` iff
the event is a CLOSE of somebody not in the database. -/
theorem applyEvent_none (w : List Nat) (e : ISplit)
    (h : applyEvent w e = none) : e.mx ≠ 0 ∧ e.who ∉ w := by
  rw [applyEvent] at h
  by_cases hmx : e.mx ≠ 0
  · rw [if_pos hmx, who_remove] at h
    by_cases hmem : e.who ∈ w
    · rw [if_pos hmem] at h
      exact absurd h (by simp)
    · exact ⟨hmx, hmem⟩
  · rw [if_neg hmx] at h
    exact absurd h (by simp)

/-- Membership after `applyEventTotal`, for a different person. -/
theorem mem_applyEventTotal_ne (w : List Nat) (e : ISplit) (p : Nat)
    (hne : p ≠ e.who) : p ∈ applyEventTotal w e ↔ p ∈ w := by
  rw [applyEventTotal]
  by_cases hmx : e.mx ≠ 0
  · rw [if_pos hmx]
    exact List.mem_erase_of_ne hne
  · rw [if_neg hmx]
    rw [mem_who_insert]
    exact ⟨fun h => h.resolve_right hne, fun h => Or.inl h⟩

/-- Membership after `applyEventTotal`, for the event's own person. -/
theorem mem_applyEventTotal_self (w : List Nat) (e : ISplit) (hnd : w.Nodup) :
    e.who ∈ applyEventTotal w e ↔ e.mx = 0 := by
  rw [applyEventTotal]
  by_cases hmx : e.mx ≠ 0
  · rw [if_pos hmx]
    constructor
    · intro h
      exact absurd ((List.Nodup.mem_erase_iff hnd).mp h).1 (by simp)
    · intro h
      exact absurd h hmx
  · rw [if_neg hmx]
    rw [mem_who_insert]
    constructor
    · intro _
      exact Decidable.not_not.mp hmx
    · intro _
      exact Or.inr rfl

/-- Unfolding of one `sc_go` iteration whose two reads are in bounds. -/
theorem sc_go_cons (es : List ISplit) (w : List Nat) (acc : List Split)
    (i r : Nat) (a b : ISplit) (ha : es[i]? = some a) (hb : es[i+1]? = some b) :
    sc_go es w acc i (r + 1)
      = (match applyEvent w a with
         | none => none
         | some w2 =>
           if a.ts = b.ts then sc_go es w2 acc (i + 1) r
           else sc_go es w2 (acc ++ [split_create w2 a.ts b.ts]) (i + 1) r) := by
  simp only [sc_go, ha, hb]
  rfl

/-- Unfolding of one `sweep` step on a list with at least two events. -/
theorem sweep_cons (w : List Nat) (acc : List Split) (a b : ISplit)
    (rest : List ISplit) :
    sweep w acc (a :: b :: rest)
      = (match applyEvent w a with
         | none => none
         | some w2 =>
           if a.ts = b.ts then sweep w2 acc (b :: rest)
           else sweep w2 (acc ++ [split_create w2 a.ts b.ts]) (b :: rest)) := rfl

/-- The `splits_create` loop (`sc_go`) equals the structural `sweep` when
`i + r + 1` is the array length. -/
theorem sc_go_eq_sweep :
    ∀ (r i : Nat) (es : List ISplit) (w : List Nat) (acc : List Split),
    i + r + 1 = es.length → sc_go es w acc i r = sweep w acc (es.drop i) := by
  intro r
  induction r with
  | zero =>
    intro i es w acc hlen
    have hdroplen : (es.drop i).length = 1 := by
      rw [List.length_drop]
      omega
    rcases List.length_eq_one.mp hdroplen with ⟨a, ha⟩
    rw [ha]
    rfl
  | succ r ih =>
    intro i es w acc hlen
    have hi : i < es.length := by omega
    have hi2 : i + 1 < es.length := by omega
    have hdrop : es.drop i = es[i] :: es.drop (i + 1) :=
      List.drop_eq_getElem_cons hi
    have hdrop2 : es.drop (i + 1) = es[i+1] :: es.drop (i + 2) :=
      List.drop_eq_getElem_cons hi2
    rw [hdrop, hdrop2]
    rw [sc_go_cons es w acc i r es[i] es[i+1]
      (List.getElem?_eq_getElem hi) (List.getElem?_eq_getElem hi2)]
    rw [sweep_cons]
    have hlen2 : (i + 1) + r + 1 = es.length := by omega
    rcases happly : applyEvent w es[i] with _ | w2
    · rfl
    · simp only
      by_cases hts : es[i].ts = es[i+1].ts
      · rw [if_pos hts, if_pos hts, ih (i + 1) es w2 acc hlen2, hdrop2]
      · rw [if_neg hts, if_neg hts,
          ih (i + 1) es w2 (acc ++ [split_create w2 es[i].ts es[i+1].ts]) hlen2, hdrop2]

/-- `splits_create` on a nonempty match count is the structural sweep of
the whole event array. -/
theorem splits_create_eq_sweep (es : List ISplit) (m : Nat)
    (hlen : es.length = 2 * m) (hm : 1 ≤ m) (hbig : m < 2 ^ 63) :
    splits_create es m = sweep [] [] es := by
  have hbound : scBound m = 2 * m - 1 := by
    rw [scBound]
    omega
  show sc_go es [] [] 0 (scBound m) = sweep [] [] es
  rw [hbound]
  have := sc_go_eq_sweep (2 * m - 1) 0 es [] [] (by omega)
  rw [this]
  rfl

/-- Along a successful sweep, every applied CLOSE event (one followed by
at least one more event) finds its person in the presence database built
by the preceding events. -/
theorem sweep_some_close_mem :
    ∀ (l1 : List ISplit) (e : ISplit) (l2 : List ISplit) (w : List Nat)
      (acc out : List Split),
    sweep w acc (l1 ++ e :: l2) = some out → l2 ≠ [] → e.mx ≠ 0 →
    e.who ∈ applyList w l1 := by
  intro l1
  induction l1 with
  | nil =>
    intro e l2 w acc out hsw hne hmx
    rcases List.exists_cons_of_ne_nil hne with ⟨b, rest, hb⟩
    rw [List.nil_append, hb, sweep_cons] at hsw
    rcases happly : applyEvent w e with _ | w2
    · simp only [happly] at hsw
      exact absurd hsw (by simp)
    · rw [applyEvent, if_pos hmx, who_remove] at happly
      by_cases hmem : e.who ∈ w
      · exact hmem
      · rw [if_neg hmem] at happly
        exact absurd happly (by simp)
  | cons a l1x ih =>
    intro e l2 w acc out hsw hne hmx
    have hne2 : l1x ++ e :: l2 ≠ [] := by simp
    rcases List.exists_cons_of_ne_nil hne2 with ⟨c, rest, hcr⟩
    rw [List.cons_append, hcr, sweep_cons] at hsw
    rcases happly : applyEvent w a with _ | w2
    · simp only [happly] at hsw
      exact absurd hsw (by simp)
    · simp only [happly] at hsw
      have hnext : ∃ acc2, sweep w2 acc2 (c :: rest) = some out := by
        by_cases hts : a.ts = c.ts
        · rw [if_pos hts] at hsw
          exact ⟨acc, hsw⟩
        · rw [if_neg hts] at hsw
          exact ⟨acc ++ [split_create w2 a.ts c.ts], hsw⟩
      rcases hnext with ⟨acc2, hsw2⟩
      rw [← hcr] at hsw2
      have hmem := ih e l2 w2 acc2 out hsw2 hne hmx
      show e.who ∈ applyList w (a :: l1x)
      rw [show applyList w (a :: l1x) = applyList (applyEventTotal w a) l1x from rfl,
        applyEvent_some w w2 a happly]
      exact hmem

/-- Presence in the state built by `applyList` is determined by the
person's last processed event. -/
theorem mem_applyList :
    ∀ (l : List ISplit) (w : List Nat) (p : Nat), w.Nodup →
    (p ∈ applyList w l
      ↔ (match lastKind l p with | some b => b = true | none => p ∈ w)) := by
  intro l
  induction l with
  | nil =>
    intro w p _
    rw [show applyList w [] = w from rfl, lastKind]
  | cons e rest ih =>
    intro w p hnd
    have hstep : applyList w (e :: rest) = applyList (applyEventTotal w e) rest := rfl
    have hnd2 : (applyEventTotal w e).Nodup := applyEventTotal_nodup w e hnd
    rw [hstep, ih (applyEventTotal w e) p hnd2]
    rcases hk : lastKind rest p with _ | b
    · rw [show lastKind (e :: rest) p
          = (match lastKind rest p with
             | some b => some b
             | none => if e.who == p then some (e.mx == 0) else none) from rfl, hk]
      by_cases hwp : e.who = p
      · rw [if_pos (by simp [hwp])]
        rw [← hwp]
        rw [mem_applyEventTotal_self w e hnd]
        by_cases hmx : e.mx = 0
        · simp [hmx]
        · simp [hmx]
      · rw [if_neg (by simp [hwp])]
        exact mem_applyEventTotal_ne w e p (fun h => hwp h.symm)
    · rw [show lastKind (e :: rest) p
          = (match lastKind rest p with
             | some b => some b
             | none => if e.who == p then some (e.mx == 0) else none) from rfl, hk]

/-- `lastKind` over an append: the second part wins when it mentions the
person. -/
theorem lastKind_append (l l2 : List ISplit) (p : Nat) :
    lastKind (l ++ l2) p
      = (match lastKind l2 p with | some b => some b | none => lastKind l p) := by
  induction l with
  | nil =>
    rw [List.nil_append, lastKind]
    rcases lastKind l2 p with _ | b <;> rfl
  | cons e rest ih =>
    rw [List.cons_append]
    rw [show lastKind (e :: (rest ++ l2)) p
        = (match lastKind (rest ++ l2) p with
           | some b => some b
           | none => if e.who == p then some (e.mx == 0) else none) from rfl]
    rw [ih]
    rcases hk : lastKind l2 p with _ | b
    · rw [show lastKind (e :: rest) p
          = (match lastKind rest p with
             | some b => some b
             | none => if e.who == p then some (e.mx == 0) else none) from rfl]
    · rfl

/-- `lastKind` of a person absent from the list. -/
theorem lastKind_none (l : List ISplit) (p : Nat) (h : ∀ e ∈ l, e.who ≠ p) :
    lastKind l p = none := by
  induction l with
  | nil => rfl
  | cons e rest ih =>
    rw [show lastKind (e :: rest) p
        = (match lastKind rest p with
           | some b => some b
           | none => if e.who == p then some (e.mx == 0) else none) from rfl]
    rw [ih (fun x hx => h x (List.mem_cons_of_mem e hx))]
    rw [if_neg (by simp [h e (List.mem_cons_self e rest)])]

/-- Two CLOSE events of the same person with no event of that person
between them, the second one applied (not last in the array): the sweep
aborts. -/
theorem sweep_cc_abort (l1 : List ISplit) (c1 : ISplit) (l2 : List ISplit)
    (c2 : ISplit) (l3 : List ISplit) (w : List Nat) (acc : List Split)
    (hnd : w.Nodup) (hmx1 : c1.mx ≠ 0) (hmx2 : c2.mx ≠ 0)
    (hwho : c2.who = c1.who) (hmid : ∀ e ∈ l2, e.who ≠ c1.who) (hl3 : l3 ≠ []) :
    sweep w acc (l1 ++ c1 :: l2 ++ c2 :: l3) = none := by
  rcases hres : sweep w acc (l1 ++ c1 :: l2 ++ c2 :: l3) with _ | out
  · rfl
  · exfalso
    have hshape : l1 ++ c1 :: l2 ++ c2 :: l3 = (l1 ++ c1 :: l2) ++ c2 :: l3 := by
      rw [List.append_assoc, List.cons_append]
    rw [hshape] at hres
    have hmem := sweep_some_close_mem (l1 ++ c1 :: l2) c2 l3 w acc out hres hl3 hmx2
    have hlast : lastKind (l1 ++ c1 :: l2) c2.who = some false := by
      rw [lastKind_append]
      have h2 : lastKind (c1 :: l2) c2.who = some false := by
        rw [show lastKind (c1 :: l2) c2.who
            = (match lastKind l2 c2.who with
               | some b => some b
               | none => if c1.who == c2.who then some (c1.mx == 0) else none) from rfl]
        rw [lastKind_none l2 c2.who (fun e he => hwho ▸ hmid e he)]
        rw [if_pos (by simp [hwho])]
        simp [hmx1]
      rw [h2]
    rw [mem_applyList (l1 ++ c1 :: l2) w c2.who hnd, hlast] at hmem
    exact Bool.false_ne_true hmem

/-- `isplits_create` on a cons: the two events of the head match followed
by the rest. -/
theorem isplits_create_cons (t : Ti) (L : List Ti) :
    isplits_create (t :: L)
      = ⟨t.min, 0, t.who⟩ :: ⟨t.max, 1, t.who⟩ :: isplits_create L := rfl

/-- The event array has twice as many entries as the match list. -/
theorem isplits_create_length (L : List Ti) :
    (isplits_create L).length = 2 * L.length := by
  induction L with
  | nil => rfl
  | cons t L ih =>
    rw [isplits_create_cons]
    simp only [List.length_cons, ih, List.length_cons]
    omega

/-- The events produced by `isplits_create` are exactly the OPEN at the
minimum and the CLOSE at the maximum of each match. -/
theorem mem_isplits_create (L : List Ti) (e : ISplit) :
    e ∈ isplits_create L
      ↔ ∃ A ∈ L, e = ⟨A.min, 0, A.who⟩ ∨ e = ⟨A.max, 1, A.who⟩ := by
  induction L with
  | nil => simp [isplits_create]
  | cons t L ih =>
    rw [isplits_create_cons]
    simp only [List.mem_cons, ih, List.mem_cons]
    constructor
    · intro h
      rcases h with h | h | ⟨A, hA, hsh⟩
      · exact ⟨t, Or.inl rfl, Or.inl h⟩
      · exact ⟨t, Or.inl rfl, Or.inr h⟩
      · exact ⟨A, Or.inr hA, hsh⟩
    · intro h
      rcases h with ⟨A, hA | hA, hsh⟩
      · rw [← hA]
        rcases hsh with h | h
        · exact Or.inl h
        · exact Or.inr (Or.inl h)
      · exact Or.inr (Or.inr ⟨A, hA, hsh⟩)

/-- Filtering the event array to one person is the event array of that
person's matches. -/
theorem filter_isplits_create (L : List Ti) (p : Nat) :
    (isplits_create L).filter (fun e => e.who == p)
      = isplits_create (L.filter (fun t => t.who == p)) := by
  induction L with
  | nil => rfl
  | cons t L ih =>
    rw [isplits_create_cons]
    by_cases hp : t.who = p
    · rw [List.filter_cons_of_pos (by simp [hp]), List.filter_cons_of_pos (by simp [hp]),
        ih, List.filter_cons_of_pos (by simp [hp]), isplits_create_cons]
    · rw [List.filter_cons_of_neg (by simp [hp]), List.filter_cons_of_neg (by simp [hp]),
        ih, List.filter_cons_of_neg (by simp [hp])]

/-- When the matches are pairwise strictly disjoint intervals, all
`2 |L|` events are distinct. -/
theorem isplits_nodup (L : List Ti) (hmm2 : ∀ t ∈ L, t.min ≤ t.max)
    (hdisj : L.Pairwise (fun a b => a.max < b.min ∨ b.max < a.min)) :
    (isplits_create L).Nodup := by
  induction L with
  | nil => exact List.nodup_nil
  | cons A L ih =>
    rw [isplits_create_cons]
    rw [List.pairwise_cons] at hdisj
    rcases hdisj with ⟨hA, hdisj2⟩
    have hmmL : ∀ t ∈ L, t.min ≤ t.max := fun t ht => hmm2 t (List.mem_cons_of_mem A ht)
    have hAmm : A.min ≤ A.max := hmm2 A (List.mem_cons_self A L)
    rw [List.nodup_cons, List.nodup_cons]
    refine ⟨?_, ?_, ih hmmL hdisj2⟩
    · intro hmem
      rcases List.mem_cons.mp hmem with heq | hmem2
      · have h01 : (0 : Nat) = 1 := congrArg ISplit.mx heq
        exact absurd h01 (by decide)
      · rcases (mem_isplits_create L _).mp hmem2 with ⟨B, hB, hsh⟩
        have hrel := hA B hB
        have hBmm := hmmL B hB
        rcases hsh with heq | heq
        · have h1 : A.min = B.min := congrArg ISplit.ts heq
          rcases hrel with h | h <;> linarith
        · have h1 : A.min = B.max := congrArg ISplit.ts heq
          rcases hrel with h | h <;> linarith
    · intro hmem2
      rcases (mem_isplits_create L _).mp hmem2 with ⟨B, hB, hsh⟩
      have hrel := hA B hB
      have hBmm := hmmL B hB
      rcases hsh with heq | heq
      · have h1 : A.max = B.min := congrArg ISplit.ts heq
        rcases hrel with h | h <;> linarith
      · have h1 : A.max = B.max := congrArg ISplit.ts heq
        rcases hrel with h | h <;> linarith

/-- Decompose a `Pairwise` around two adjacent distinguished elements. -/
theorem pairwise_decomp {α : Type} {R : α → α → Prop} (l1 l2 : List α) (x y : α)
    (h : (l1 ++ x :: y :: l2).Pairwise R) :
    R x y ∧ (∀ z ∈ l1, R z x) ∧ (∀ z ∈ l2, R y z) := by
  rw [List.pairwise_append] at h
  rcases h with ⟨_, h2, h3⟩
  rw [List.pairwise_cons] at h2
  rcases h2 with ⟨hx, h2⟩
  rw [List.pairwise_cons] at h2
  rcases h2 with ⟨hy, _⟩
  exact ⟨hx y (List.mem_cons_self y l2),
    fun z hz => h3 z hz x (List.mem_cons_self x (y :: l2)),
    fun z hz => hy z hz⟩

/-- An event list whose decompositions never show two adjacent CLOSE
events, and whose head is constrained by the current bit, is `AltOK`. -/
theorem altOK_of_noCC :
    ∀ (l : List ISplit) (inW : Bool),
    (∀ (l1 : List ISplit) (x y : ISplit) (l2 : List ISplit),
      l = l1 ++ x :: y :: l2 → ¬(x.mx ≠ 0 ∧ y.mx ≠ 0)) →
    (∀ (e : ISplit) (l2 : List ISplit), l = e :: l2 → e.mx ≠ 0 → inW = true) →
    AltOK inW l := by
  intro l
  induction l with
  | nil =>
    intro inW _ _
    trivial
  | cons e rest ih =>
    intro inW hncc hhead
    show (e.mx ≠ 0 → inW = true) ∧ AltOK (e.mx == 0) rest
    refine ⟨fun h => hhead e rest rfl h, ?_⟩
    apply ih
    · intro l1 x y l2 hdec
      exact hncc (e :: l1) x y l2 (by rw [hdec, List.cons_append])
    · intro f l2 hdec hf
      have hne := hncc [] e f l2 (by rw [hdec]; rfl)
      have he : ¬e.mx ≠ 0 := fun hAx => hne ⟨hAx, hf⟩
      have he2 : e.mx = 0 := Decidable.not_not.mp he
      simp [he2]

/-- The per-person event sequence obtained by sorting the events of
pairwise strictly disjoint intervals alternates correctly: its head is an
OPEN and no two CLOSE events are adjacent, hence `AltOK false`. -/
theorem altOK_of_sorted_disjoint (M : List Ti) (lp : List ISplit)
    (hperm : lp.Perm (isplits_create M))
    (hsorted : lp.Pairwise isplit_le)
    (hmm2 : ∀ A ∈ M, A.min ≤ A.max)
    (hdisj : M.Pairwise (fun a b => a.max < b.min ∨ b.max < a.min)) :
    AltOK false lp := by
  have hnodup : lp.Nodup := (List.Perm.nodup_iff hperm).mpr (isplits_nodup M hmm2 hdisj)
  have hmemiff : ∀ e : ISplit, e ∈ lp ↔ e ∈ isplits_create M := fun e => hperm.mem_iff
  have hclose : ∀ e : ISplit, e ∈ lp → e.mx ≠ 0 →
      ∃ A ∈ M, e = ⟨A.max, 1, A.who⟩ := by
    intro e hel hmx
    rcases (mem_isplits_create M e).mp ((hmemiff e).mp hel) with ⟨A, hA, hsh⟩
    rcases hsh with h | h
    · have h0 : e.mx = 0 := by rw [h]
      exact absurd h0 hmx
    · exact ⟨A, hA, h⟩
  apply altOK_of_noCC
  · -- no two adjacent CLOSE events
    intro l1 x y l2 hdec hxy
    rcases hxy with ⟨hx, hy⟩
    have hxl : x ∈ lp := by rw [hdec]; simp
    have hyl : y ∈ lp := by rw [hdec]; simp
    rcases hclose x hxl hx with ⟨A, hA, hshA⟩
    rcases hclose y hyl hy with ⟨B, hB, hshB⟩
    rw [hdec] at hsorted hnodup
    obtain ⟨hxyle, hl1, hl2⟩ := pairwise_decomp l1 l2 x y hsorted
    have hAmm := hmm2 A hA
    have hBmm := hmm2 B hB
    have hABmax : A.max ≤ B.max := by
      rcases hxyle with h | ⟨h, _⟩
      · rw [hshA, hshB] at h
        have h2 : A.max < B.max := h
        exact le_of_lt h2
      · rw [hshA, hshB] at h
        have h2 : A.max = B.max := h
        exact le_of_eq h2
    have hxny : x ≠ y := (pairwise_decomp l1 l2 x y hnodup).1
    have hAB : A ≠ B := fun h => hxny (by rw [hshA, hshB, h])
    have hsymm : Symmetric (fun a b : Ti => a.max < b.min ∨ b.max < a.min) :=
      fun a b h => h.symm
    have hrel := List.Pairwise.forall hsymm hdisj hA hB hAB
    rcases hrel with hrel | hrel
    · -- A.max < B.min: the OPEN of B sits strictly between x and y
      have hzmem : (⟨B.min, 0, B.who⟩ : ISplit) ∈ lp :=
        (hmemiff _).mpr ((mem_isplits_create M _).mpr ⟨B, hB, Or.inl rfl⟩)
      rw [hdec] at hzmem
      rcases List.mem_append.mp hzmem with hz1 | hz2
      · have hle := hl1 _ hz1
        rcases hle with h | ⟨h, _⟩
        · rw [hshA] at h
          have h2 : B.min < A.max := h
          linarith
        · rw [hshA] at h
          have h2 : B.min = A.max := h
          linarith
      · rcases List.mem_cons.mp hz2 with hz | hz2
        · have h0 : x.mx = 0 := by rw [← hz]
          exact hx h0
        rcases List.mem_cons.mp hz2 with hz | hz2
        · have h0 : y.mx = 0 := by rw [← hz]
          exact hy h0
        · have hle := hl2 _ hz2
          rcases hle with h | ⟨h, hm⟩
          · rw [hshB] at h
            have h2 : B.max < B.min := h
            linarith
          · rw [hshB] at hm
            have h10 : (1 : Nat) ≤ 0 := hm
            exact absurd h10 (by decide)
    · -- B.max < A.min contradicts A.max ≤ B.max
      linarith
  · -- the head is an OPEN
    intro e l2 hdec hmx
    exfalso
    have hel : e ∈ lp := by rw [hdec]; exact List.mem_cons_self e l2
    rcases hclose e hel hmx with ⟨A, hA, hsh⟩
    have hzmem : (⟨A.min, 0, A.who⟩ : ISplit) ∈ lp :=
      (hmemiff _).mpr ((mem_isplits_create M _).mpr ⟨A, hA, Or.inl rfl⟩)
    rw [hdec] at hzmem
    rcases List.mem_cons.mp hzmem with hz | hz
    · have h0 : e.mx = 0 := by rw [← hz]
      exact hmx h0
    · rw [hdec] at hsorted
      have hle := (List.pairwise_cons.mp hsorted).1 _ hz
      rcases hle with h | ⟨h, hm⟩
      · rw [hsh] at h
        have h2 : A.max < A.min := h
        have := hmm2 A hA
        linarith
      · rw [hsh] at hm
        have h10 : (1 : Nat) ≤ 0 := hm
        exact absurd h10 (by decide)

/-- When every person's event subsequence is `AltOK` for the current
presence database, the sweep never aborts. -/
theorem sweep_ne_none_of_altOK :
    ∀ (l : List ISplit) (w : List Nat) (acc : List Split), w.Nodup →
    (∀ p, AltOK (who_get w p) (l.filter (fun e => e.who == p))) →
    sweep w acc l ≠ none := by
  intro l
  induction l with
  | nil =>
    intro w acc _ _
    simp [sweep]
  | cons a rest ih =>
    intro w acc hnd hAlt
    rcases rest with _ | ⟨b, rest2⟩
    · simp [sweep]
    · have hA : (a.mx ≠ 0 → who_get w a.who = true)
          ∧ AltOK (a.mx == 0) ((b :: rest2).filter (fun e => e.who == a.who)) := by
        have h0 := hAlt a.who
        rw [List.filter_cons_of_pos (by simp)] at h0
        exact h0
      have hguard : a.mx ≠ 0 → a.who ∈ w := by
        intro h
        have := hA.1 h
        simpa [who_get] using this
      rw [sweep_cons, applyEvent_of_guard w a hguard]
      have hnd2 : (applyEventTotal w a).Nodup := applyEventTotal_nodup w a hnd
      have hAlt2 : ∀ p,
          AltOK (who_get (applyEventTotal w a) p)
            ((b :: rest2).filter (fun e => e.who == p)) := by
        intro p
        by_cases hp : p = a.who
        · have hbool : who_get (applyEventTotal w a) p = (a.mx == 0) := by
            have hiff : p ∈ applyEventTotal w a ↔ a.mx = 0 := by
              rw [hp]
              exact mem_applyEventTotal_self w a hnd
            by_cases hmx : a.mx = 0
            · simp [who_get, hiff.mpr hmx, hmx]
            · have hnot : p ∉ applyEventTotal w a := fun hmem => hmx (hiff.mp hmem)
              simp [who_get, hnot, hmx]
          rw [hbool, hp]
          exact hA.2
        · have hw : who_get (applyEventTotal w a) p = who_get w p := by
            have hiff := mem_applyEventTotal_ne w a p hp
            by_cases hm : p ∈ w
            · simp [who_get, hiff.mpr hm, hm]
            · have hnot : p ∉ applyEventTotal w a := fun h2 => hm (hiff.mp h2)
              simp [who_get, hnot, hm]
          have h0 := hAlt p
          rw [List.filter_cons_of_neg (by simp [Ne.symm hp])] at h0
          rw [hw]
          exact h0
      show (if a.ts = b.ts then sweep (applyEventTotal w a) acc (b :: rest2)
            else sweep (applyEventTotal w a)
              (acc ++ [split_create (applyEventTotal w a) a.ts b.ts]) (b :: rest2)) ≠ none
      by_cases hts : a.ts = b.ts
      · rw [if_pos hts]
        exact ih (applyEventTotal w a) acc hnd2 hAlt2
      · rw [if_neg hts]
        exact ih (applyEventTotal w a) (acc ++ [split_create (applyEventTotal w a) a.ts b.ts])
          hnd2 hAlt2

/-- C10 claims that whenever the match list contains two same-person
matches whose clipped ranges overlap (both OPEN events sort before either
CLOSE), the second CLOSE reaches the `who_remove` abort.  Counterexample:
the two overlapping matches `[0, 5]` and `[3, 5]` of person 0 sort to
OPEN, OPEN, CLOSE, CLOSE, yet `splits_init` returns normally, because the
loop runs `i` up to `2m - 2` and therefore never applies the final
event — the offending second CLOSE. -/
theorem C10_counterexample :
    splits_init [(⟨0, 5, 0⟩ : Ti), ⟨3, 5, 0⟩]
      = some [⟨0, 3, [0], 0⟩, ⟨3, 5, [0], 0⟩]
    ∧ sortIsplits (isplits_create [(⟨0, 5, 0⟩ : Ti), ⟨3, 5, 0⟩])
      = [⟨0, 0, 0⟩, ⟨3, 0, 0⟩, ⟨5, 1, 0⟩, ⟨5, 1, 0⟩] := by
  exact ⟨by decide, by decide⟩

/-- C10 amended: the `splits_create` loop applies every event of the
sorted array except the last.  (1) If the array contains two CLOSE events
of one person with no event of that person between them and at least one
event after the second — as produced by two overlapping same-person
matches followed by any later event — the run aborts in `who_remove`
(deleting an absent key).  (2) If every person's matches are pairwise
strictly disjoint (the earlier `tMax` strictly below the later `tMin`;
abutting or overlapping ranges both make the OPEN of one sort before the
CLOSE of the other), the abort branch is unreachable and `splits_init`
returns normally.  When the offending second CLOSE is the final event of
the array it is never applied, so no abort occurs (see the
counterexample). -/
theorem C10_split_engine_totality :
    (∀ (l1 l2 l3 : List ISplit) (c1 c2 : ISplit) (m : Nat),
      m < 2 ^ 63 →
      (l1 ++ c1 :: l2 ++ c2 :: l3).length = 2 * m →
      c1.mx ≠ 0 → c2.mx ≠ 0 → c2.who = c1.who →
      (∀ e ∈ l2, e.who ≠ c1.who) → l3 ≠ [] →
      splits_create (l1 ++ c1 :: l2 ++ c2 :: l3) m = none)
    ∧ (∀ matchList : List Ti,
      matchList ≠ [] → matchList.length < 2 ^ 63 →
      (∀ t ∈ matchList, t.min ≤ t.max) →
      matchList.Pairwise (fun a b => a.who = b.who → a.max < b.min ∨ b.max < a.min) →
      splits_init matchList ≠ none) := by
  constructor
  · intro l1 l2 l3 c1 c2 m hbig hlen hmx1 hmx2 hwho hmid hl3
    have hm1 : 1 ≤ m := by
      have h2 : 2 ≤ (l1 ++ c1 :: l2 ++ c2 :: l3).length := by
        simp only [List.length_append, List.length_cons]
        omega
      omega
    rw [splits_create_eq_sweep (l1 ++ c1 :: l2 ++ c2 :: l3) m hlen hm1 hbig]
    exact sweep_cc_abort l1 c1 l2 c2 l3 [] [] List.nodup_nil hmx1 hmx2 hwho hmid hl3
  · intro matchList hne hbig hmm2 hdisjW
    have hlen : (sortIsplits (isplits_create matchList)).length = 2 * matchList.length := by
      rw [sortIsplits, (List.perm_insertionSort isplit_le (isplits_create matchList)).length_eq,
        isplits_create_length]
    have hm1 : 1 ≤ matchList.length := List.length_pos.mpr hne
    show splits_create (sortIsplits (isplits_create matchList)) matchList.length ≠ none
    rw [splits_create_eq_sweep (sortIsplits (isplits_create matchList)) matchList.length
      hlen hm1 hbig]
    apply sweep_ne_none_of_altOK (sortIsplits (isplits_create matchList)) [] [] List.nodup_nil
    intro p
    have hwg : who_get ([] : List Nat) p = false := by simp [who_get]
    rw [hwg]
    apply altOK_of_sorted_disjoint (matchList.filter (fun t => t.who == p))
    · have h1 : ((sortIsplits (isplits_create matchList)).filter
          (fun e => e.who == p)).Perm
          ((isplits_create matchList).filter (fun e => e.who == p)) :=
        (List.perm_insertionSort isplit_le (isplits_create matchList)).filter _
      rw [filter_isplits_create] at h1
      exact h1
    · exact List.Pairwise.filter _
        (List.sorted_insertionSort isplit_le (isplits_create matchList))
    · intro A hA
      exact hmm2 A (List.mem_of_mem_filter hA)
    · have h2 := List.Pairwise.filter (fun t : Ti => t.who == p) hdisjW
      apply List.Pairwise.imp_of_mem ?_ h2
      intro a b ha hb hab
      have hpa : a.who = p := by simpa using (List.mem_filter.mp ha).2
      have hpb : b.who = p := by simpa using (List.mem_filter.mp hb).2
      exact hab (by rw [hpa, hpb])

/-- Witness for `C10_split_engine_totality`: the abort part applied to the
sorted events of the overlapping matches `[0, 5]`, `[3, 5]` of person 0
plus the later-closing match `[0, 9]` of person 1, and the safety part
applied to two strictly disjoint matches of one person. -/
theorem C10_split_engine_totality_witness :
    splits_create
      [(⟨0, 0, 0⟩ : ISplit), ⟨0, 0, 1⟩, ⟨3, 0, 0⟩, ⟨5, 1, 0⟩, ⟨5, 1, 0⟩, ⟨9, 1, 1⟩] 3 = none
    ∧ splits_init [(⟨0, 2, 0⟩ : Ti), ⟨5, 8, 0⟩] ≠ none := by
  constructor
  · exact C10_split_engine_totality.1 [⟨0, 0, 0⟩, ⟨0, 0, 1⟩, ⟨3, 0, 0⟩] [] [⟨9, 1, 1⟩]
      ⟨5, 1, 0⟩ ⟨5, 1, 0⟩ 3 (by decide) (by decide) (by decide) (by decide) (by decide)
      (by decide) (by decide)
  · exact C10_split_engine_totality.2 [⟨0, 2, 0⟩, ⟨5, 8, 0⟩] (by decide) (by decide)
      (by decide) (by decide)

end It
